import Mathlib

/-!
Verification development for the obsidian word-count plugin.

Text is modelled as `List Char` (the plugin works on JavaScript strings,
which we treat as their character sequences).  JavaScript numbers holding
counters are modelled as `Nat` where the code only ever stores non-negative
integers, and as `Int` where sign matters (date differences, raw loaded
data).  Fallible parsing returns `Option`.
-/

namespace WriterStats

/-- The backtick character (used by the markdown strippers). -/
def btick : Char := Char.ofNat 96

/-! ## Character classes (from `src/utils/constants.ts`, `REGEX_PATTERNS`) -/

/-- Code-point range test for character classes. -/
def inRange (c : Char) (lo hi : Nat) : Bool :=
  lo ≤ c.toNat && c.toNat ≤ hi

/-- `[0-9]` (REGEX_PATTERNS.NUMBERS). -/
def isAsciiDigit (c : Char) : Bool := inRange c 0x30 0x39

/-- Full-width digits (REGEX_PATTERNS.FULL_WIDTH_NUMBERS, ff10-ff19). -/
def isFullWidthDigit (c : Char) : Bool := inRange c 0xff10 0xff19

/-- `[a-zA-Z]` (REGEX_PATTERNS.ENGLISH). -/
def isEnglishChar (c : Char) : Bool :=
  inRange c 0x61 0x7a || inRange c 0x41 0x5a

/-- JavaScript `\s`: whitespace and line terminators. -/
def isJsWs (c : Char) : Bool :=
  c = ' ' || c = '\t' || c = '\n' || c = '\r' ||
  c.toNat = 0x0b || c.toNat = 0x0c || c.toNat = 0xa0 || c.toNat = 0x1680 ||
  inRange c 0x2000 0x200a || c.toNat = 0x2028 || c.toNat = 0x2029 ||
  c.toNat = 0x202f || c.toNat = 0x205f || c.toNat = 0x3000 ||
  c.toNat = 0xfeff

/-- JavaScript `\w`: `[A-Za-z0-9_]`. -/
def isWordChar (c : Char) : Bool :=
  isEnglishChar c || isAsciiDigit c || c = '_'

/-- The character class of REGEX_PATTERNS.CHINESE.  Besides the intended BMP
CJK ranges (4e00-9fff, 3400-4dbf, f900-faff, 3300-33ff, fe30-fe4f), the
source class contains the text `\U00020000-\U0002a6df` (and three similar
spans); `\U` is not a JavaScript escape, so per Annex B it parses as the
literal letter `U` and digits, yielding the accidental range `'0'`-`'U'`
(0x30-0x55) plus the singleton letters `a`-`f`.  We embed the class as the
regex engine actually reads it. -/
def cjkClassChar (c : Char) : Bool :=
  inRange c 0x4e00 0x9fff || inRange c 0x3400 0x4dbf ||
  inRange c 0xf900 0xfaff || inRange c 0x3300 0x33ff ||
  inRange c 0xfe30 0xfe4f ||
  inRange c 0x30 0x55 || inRange c 0x61 0x66

/-- REGEX_PATTERNS.PUNCTUATION: the negated class over `\w`, `\s` and the
same (mis-)parsed CJK class body. -/
def isPunctChar (c : Char) : Bool :=
  !isWordChar c && !isJsWs c && !cjkClassChar c

/-- REGEX_PATTERNS.FULL_WIDTH_PUNCTUATION (ff01-ff0f, ff1a-ff20, ff3b-ff40,
ff5b-ff60, ff61-ff65, ffe0-ffe6). -/
def isFullWidthPunct (c : Char) : Bool :=
  inRange c 0xff01 0xff0f || inRange c 0xff1a 0xff20 ||
  inRange c 0xff3b 0xff40 || inRange c 0xff5b 0xff60 ||
  inRange c 0xff61 0xff65 || inRange c 0xffe0 0xffe6

/-- `^[IVXLCDM]+$` with the `i` flag (REGEX_PATTERNS.ROMAN_NUMERALS),
applied to a non-empty run. -/
def isRomanChar (c : Char) : Bool :=
  c = 'I' || c = 'V' || c = 'X' || c = 'L' || c = 'C' || c = 'D' || c = 'M' ||
  c = 'i' || c = 'v' || c = 'x' || c = 'l' || c = 'c' || c = 'd' || c = 'm'

def isRomanWord (cs : List Char) : Bool :=
  !cs.isEmpty && cs.all isRomanChar

/-! ## Dates

`getTodayString` produces `YYYY-MM-DD`; `getDaysDifference`
(`src/utils/helpers.ts`, and inlined in `StatsManager.updateStreakData`)
computes `Math.floor((Date(d2) - Date(d1)) / 86400000)`.  For valid
ISO `YYYY-MM-DD` strings both dates are UTC midnights, so the floored
quotient is exactly the difference of the civil day numbers, which is what
we compute here.  An unparseable date yields `NaN` in JavaScript, making
every comparison false; we model that with `none`. -/

def parseNat (cs : List Char) : Option Nat :=
  if cs.isEmpty || !cs.all isAsciiDigit then none
  else some (cs.foldl (fun a c => a * 10 + (c.toNat - 48)) 0)

def isLeapYear (y : Nat) : Bool :=
  (y % 4 = 0 && y % 100 ≠ 0) || y % 400 = 0

/-- Days in the months strictly before month `m` (1-based). -/
def daysBeforeMonth (leap : Bool) (m : Nat) : Nat :=
  let feb := if leap then 29 else 28
  [31, feb, 31, 30, 31, 30, 31, 31, 30, 31, 30].take (m - 1) |>.sum

/-- Proleptic Gregorian day number of `y-m-d` (days since 0001-01-01). -/
def civilDayNumber (y m d : Nat) : Nat :=
  365 * (y - 1) + (y - 1) / 4 - (y - 1) / 100 + (y - 1) / 400 +
    daysBeforeMonth (isLeapYear y) m + (d - 1)

/-- Parse a `YYYY-MM-DD` string into its civil day number.  The JavaScript
`Date` constructor accepts exactly 4-2-2 digit groups in ISO form and
rejects out-of-range months/days. -/
def parseDateDays (cs : List Char) : Option Nat :=
  match cs.splitOn '-' with
  | [ys, ms, ds] =>
    if ys.length = 4 && ms.length = 2 && ds.length = 2 then
      match parseNat ys, parseNat ms, parseNat ds with
      | some y, some m, some d =>
        if 1 ≤ m && m ≤ 12 && 1 ≤ d && d ≤ 31 then
          some (civilDayNumber y m d)
        else none
      | _, _, _ => none
    else none
  | _ => none

/-- `getDaysDifference date1 date2` (whole-day difference, `date2 - date1`). -/
def getDaysDifference (d1 d2 : List Char) : Option Int :=
  match parseDateDays d1, parseDateDays d2 with
  | some a, some b => some ((b : Int) - (a : Int))
  | _, _ => none

/-! ## Streak tracker (`StatsManager.updateStreakData`, README lines 303-327;
the same code appears as `WordCountPlugin.updateStreakData` in the legacy
monolith). -/

structure StreakData where
  current : Nat
  longest : Nat
  lastDate : List Char
  deriving Repr, DecidableEq

/-- The initial / reset streak state (`StatsManager` field initialiser and
`resetData`). -/
def initStreak : StreakData := ⟨0, 0, []⟩

/-- `StatsManager.updateStreakData(today)`.  When the day difference is
`NaN` (unparseable date) or negative or zero, neither branch fires and the
state is returned unchanged. -/
def updateStreakData (sd : StreakData) (today : List Char) : StreakData :=
  if sd.lastDate = [] then
    ⟨1, 1, today⟩
  else
    match getDaysDifference sd.lastDate today with
    | none => sd
    | some diffDays =>
      if diffDays = 1 then
        ⟨sd.current + 1,
          if sd.current + 1 > sd.longest then sd.current + 1 else sd.longest,
          today⟩
      else if diffDays > 1 then
        ⟨1, sd.longest, today⟩
      else sd

/-- `StatsManager.resetData` puts the streak state back to the reset value,
whatever it was before. -/
def resetStreakData (_ : StreakData) : StreakData := initStreak

/-- Running the tracker over a sequence of `advance` calls from the reset
state. -/
def runStreak (days : List (List Char)) : StreakData :=
  days.foldl updateStreakData initStreak

/-! Concrete dates used by witnesses. -/

def d20240101 : List Char := ['2','0','2','4','-','0','1','-','0','1']
def d20240102 : List Char := ['2','0','2','4','-','0','1','-','0','2']
def d20240110 : List Char := ['2','0','2','4','-','0','1','-','1','0']

/-! ## Streak theorems -/

theorem updateStreakData_empty (sd : StreakData) (today : List Char)
    (h : sd.lastDate = []) : updateStreakData sd today = ⟨1, 1, today⟩ := by
  simp [updateStreakData, h]

theorem updateStreakData_unparsed (sd : StreakData) (today : List Char)
    (h : sd.lastDate ≠ []) (hd : getDaysDifference sd.lastDate today = none) :
    updateStreakData sd today = sd := by
  simp [updateStreakData, h, hd]

theorem updateStreakData_next (sd : StreakData) (today : List Char)
    (h : sd.lastDate ≠ []) (hd : getDaysDifference sd.lastDate today = some 1) :
    updateStreakData sd today =
      ⟨sd.current + 1,
        if sd.current + 1 > sd.longest then sd.current + 1 else sd.longest,
        today⟩ := by
  simp [updateStreakData, h, hd]

theorem updateStreakData_gap (sd : StreakData) (today : List Char) (d : Int)
    (h : sd.lastDate ≠ []) (hd : getDaysDifference sd.lastDate today = some d)
    (h1 : d ≠ 1) (h2 : d > 1) :
    updateStreakData sd today = ⟨1, sd.longest, today⟩ := by
  simp only [updateStreakData, if_neg h, hd, if_neg h1, if_pos h2]

theorem updateStreakData_stay (sd : StreakData) (today : List Char) (d : Int)
    (h : sd.lastDate ≠ []) (hd : getDaysDifference sd.lastDate today = some d)
    (h1 : d ≠ 1) (h2 : ¬ d > 1) : updateStreakData sd today = sd := by
  simp only [updateStreakData, if_neg h, hd, if_neg h1, if_neg h2]

/-- C3: `advance(today)` implements exactly the claimed transition function:
empty `lastDate` gives `(1, 1, today)`; otherwise, with `d` the whole-day
difference from `lastDate` to `today`, `d = 1` increments `current` and
raises `longest` to `max longest current`, `d > 1` resets `current` to 1
leaving `longest` unchanged, and `d = 0` changes nothing (repeated same-day
calls are idempotent). -/
theorem updateStreakData_transition (sd : StreakData) (today : List Char) :
    (sd.lastDate = [] → updateStreakData sd today = ⟨1, 1, today⟩) ∧
    (sd.lastDate ≠ [] →
      ∀ d : Int, getDaysDifference sd.lastDate today = some d →
        (d = 1 → updateStreakData sd today =
            ⟨sd.current + 1, max sd.longest (sd.current + 1), today⟩) ∧
        (1 < d → updateStreakData sd today = ⟨1, sd.longest, today⟩) ∧
        (d = 0 → updateStreakData sd today = sd)) := by
  refine ⟨fun h => updateStreakData_empty sd today h,
    fun h d hd => ⟨?_, ?_, ?_⟩⟩
  · intro h1
    subst h1
    rw [updateStreakData_next sd today h hd]
    simp only [StreakData.mk.injEq, true_and, and_true]
    rw [Nat.max_def]
    split <;> split <;> omega
  · intro h1
    exact updateStreakData_gap sd today d h hd (by omega) h1
  · intro h0
    exact updateStreakData_stay sd today d h hd (by omega) (by omega)

/-- Witness for C3: all four transition cases at concrete states. -/
theorem updateStreakData_transition_witness :
    updateStreakData ⟨0, 0, []⟩ d20240102 = ⟨1, 1, d20240102⟩ ∧
    updateStreakData ⟨3, 5, d20240101⟩ d20240102 = ⟨4, 5, d20240102⟩ ∧
    updateStreakData ⟨3, 5, d20240101⟩ d20240110 = ⟨1, 5, d20240110⟩ ∧
    updateStreakData ⟨3, 5, d20240101⟩ d20240101 = ⟨3, 5, d20240101⟩ := by
  refine ⟨(updateStreakData_transition ⟨0, 0, []⟩ d20240102).1 rfl, ?_, ?_, ?_⟩
  · exact (((updateStreakData_transition ⟨3, 5, d20240101⟩ d20240102).2
      (by decide) 1 (by decide)).1 rfl).trans (by decide)
  · exact ((updateStreakData_transition ⟨3, 5, d20240101⟩ d20240110).2
      (by decide) 9 (by decide)).2.1 (by decide)
  · exact ((updateStreakData_transition ⟨3, 5, d20240101⟩ d20240101).2
      (by decide) 0 (by decide)).2.2 rfl

/-- Auxiliary inductive invariant for the streak tracker: `current` never
exceeds `longest`, and once a date has been recorded `longest` is at
least 1. -/
def StreakInv (sd : StreakData) : Prop :=
  sd.current ≤ sd.longest ∧ (sd.lastDate ≠ [] → 1 ≤ sd.longest)

theorem streakInv_init : StreakInv initStreak :=
  ⟨Nat.le_refl 0, fun h => absurd rfl h⟩

theorem streakInv_step (sd : StreakData) (t : List Char) (h : StreakInv sd) :
    StreakInv (updateStreakData sd t) := by
  obtain ⟨h1, h2⟩ := h
  by_cases he : sd.lastDate = []
  · rw [updateStreakData_empty sd t he]
    exact ⟨Nat.le_refl 1, fun _ => Nat.le_refl 1⟩
  · cases hd : getDaysDifference sd.lastDate t with
    | none =>
      rw [updateStreakData_unparsed sd t he hd]
      exact ⟨h1, h2⟩
    | some d =>
      have hlg : 1 ≤ sd.longest := h2 he
      rcases lt_trichotomy d 1 with hlt | heq1 | hgt
      · rw [updateStreakData_stay sd t d he hd (by omega) (by omega)]
        exact ⟨h1, h2⟩
      · subst heq1
        rw [updateStreakData_next sd t he hd]
        refine ⟨?_, fun _ => ?_⟩ <;> dsimp only <;> split <;> omega
      · rw [updateStreakData_gap sd t d he hd (by omega) hgt]
        exact ⟨hlg, fun _ => hlg⟩

theorem streakInv_run (days : List (List Char)) (sd : StreakData)
    (h : StreakInv sd) : StreakInv (days.foldl updateStreakData sd) := by
  induction days generalizing sd with
  | nil => exact h
  | cons t rest ih => exact ih _ (streakInv_step sd t h)

/-- C4: `current ≤ longest` holds in the initial/reset state, after any
sequence of `advance` steps from it, and after the reset-all operation
applied to any state. -/
theorem streak_current_le_longest :
    initStreak.current ≤ initStreak.longest ∧
    (∀ days : List (List Char),
      (runStreak days).current ≤ (runStreak days).longest) ∧
    (∀ sd : StreakData,
      (resetStreakData sd).current ≤ (resetStreakData sd).longest) := by
  refine ⟨streakInv_init.1, ?_, ?_⟩
  · intro days
    exact (streakInv_run days initStreak streakInv_init).1
  · intro sd
    exact streakInv_init.1

/-- C10: when `lastDate` is non-empty and today precedes it (negative
whole-day difference), `advance` leaves the whole state unchanged; the
function returns normally, producing no error. -/
theorem updateStreakData_negative_noop (sd : StreakData) (today : List Char)
    (d : Int) (h1 : sd.lastDate ≠ []) (h2 : getDaysDifference sd.lastDate today = some d)
    (h3 : d < 0) : updateStreakData sd today = sd := by
  simp only [updateStreakData, if_neg h1, h2]
  rw [if_neg (by omega), if_neg (by omega)]

/-- Witness for C10: advancing from 2024-01-02 back to 2024-01-01. -/
theorem updateStreakData_negative_noop_witness :
    updateStreakData ⟨2, 4, d20240102⟩ d20240101 = ⟨2, 4, d20240102⟩ :=
  updateStreakData_negative_noop ⟨2, 4, d20240102⟩ d20240101 (-1)
    (by decide) (by decide) (by decide)

/-! ## Daily aggregator (`StatsManager`, README lines 200-435)

The manager's `dailyStats` map is modelled as an association list with
JavaScript `Map` semantics: `set` replaces the value of an existing key in
place, otherwise appends. -/

structure TextAnalysisResult where
  chinese : Nat
  english : Nat
  punctuation : Nat
  numbers : Nat
  spaces : Nat
  words : Nat
  deriving Repr, DecidableEq

/-- The settings fields read by the analyzer and the stats manager
(`WordCountSettings`). -/
structure WordCountSettings where
  trackChinese : Bool
  trackEnglish : Bool
  trackPunctuation : Bool
  trackNumbers : Bool
  trackSpaces : Bool
  showWordCount : Bool
  deriving Repr, DecidableEq

inductive ChangeAction where
  | add
  | delete
  deriving Repr, DecidableEq

structure CharChange where
  timestamp : Nat
  action : ChangeAction
  fileName : List Char
  chinese : Nat
  english : Nat
  punctuation : Nat
  numbers : Nat
  spaces : Nat
  words : Nat
  total : Nat
  deriving Repr, DecidableEq

structure DailyStats where
  date : List Char
  chinese : Nat
  english : Nat
  punctuation : Nat
  numbers : Nat
  spaces : Nat
  words : Nat
  total : Nat
  goal : Nat
  completed : Bool
  charChanges : List CharChange
  deriving Repr, DecidableEq

/-- `StatsManager.createEmptyStats`. -/
def createEmptyStats (date : List Char) : DailyStats :=
  ⟨date, 0, 0, 0, 0, 0, 0, 0, 0, false, []⟩

/-- The `charCount` computed in `updateWordCount`: the sum of exactly the
counters whose tracking toggle is enabled (`words` is never added). -/
def computeTotal (s : WordCountSettings) (r : TextAnalysisResult) : Nat :=
  (if s.trackChinese then r.chinese else 0) +
  (if s.trackEnglish then r.english else 0) +
  (if s.trackPunctuation then r.punctuation else 0) +
  (if s.trackNumbers then r.numbers else 0) +
  (if s.trackSpaces then r.spaces else 0)

/-- The `charChange` record built in `updateWordCount`. -/
def mkCharChange (s : WordCountSettings) (fileName : List Char) (ts : Nat)
    (r : TextAnalysisResult) : CharChange :=
  ⟨ts, ChangeAction.add, fileName, r.chinese, r.english, r.punctuation,
    r.numbers, r.spaces, r.words, computeTotal s r⟩

def MAX_CHAR_CHANGES : Nat := 100

/-- `charChanges.push(...)` followed by the `slice(-MAX_CHAR_CHANGES)`
truncation guarded by `length > MAX_CHAR_CHANGES`. -/
def pushBounded (l : List CharChange) (e : CharChange) : List CharChange :=
  if (l ++ [e]).length > MAX_CHAR_CHANGES then
    (l ++ [e]).drop ((l ++ [e]).length - MAX_CHAR_CHANGES)
  else l ++ [e]

/-- The per-record effect of `StatsManager.updateWordCount`: overwrite the
six counters and `total`, recompute `completed`, append a bounded change
entry.  `goal` and `date` are untouched. -/
def updateDaily (s : WordCountSettings) (prev : DailyStats)
    (fileName : List Char) (ts : Nat) (r : TextAnalysisResult) : DailyStats :=
  { prev with
    chinese := r.chinese
    english := r.english
    punctuation := r.punctuation
    numbers := r.numbers
    spaces := r.spaces
    words := r.words
    total := computeTotal s r
    completed := decide (0 < computeTotal s r)
    charChanges := pushBounded prev.charChanges (mkCharChange s fileName ts r) }

/-- JavaScript `Map.set`: replace in place or append. -/
def setStats : List (List Char × DailyStats) → List Char → DailyStats →
    List (List Char × DailyStats)
  | [], k, v => [(k, v)]
  | (k1, v1) :: rest, k, v =>
    if k1 = k then (k, v) :: rest else (k1, v1) :: setStats rest k v

/-- JavaScript `Map.get`. -/
def getStats (m : List (List Char × DailyStats)) (k : List Char) :
    Option DailyStats :=
  List.lookup k m

/-- `StatsManager.updateWordCount(fileName, analysisResult)` restricted to
its effect on the `dailyStats` map (persistence and the streak call are
modelled separately). -/
def updateWordCount (s : WordCountSettings) (m : List (List Char × DailyStats))
    (today fileName : List Char) (ts : Nat) (r : TextAnalysisResult) :
    List (List Char × DailyStats) :=
  let prev := (getStats m today).getD (createEmptyStats today)
  setStats m today (updateDaily s prev fileName ts r)

theorem lookup_setStats_self (m : List (List Char × DailyStats))
    (k : List Char) (v : DailyStats) : List.lookup k (setStats m k v) = some v := by
  induction m with
  | nil => simp [setStats, List.lookup]
  | cons kv rest ih =>
    obtain ⟨k1, v1⟩ := kv
    by_cases h : k1 = k
    · simp [setStats, h, List.lookup]
    · simp only [setStats, if_neg h, List.lookup]
      have hb : (k == k1) = false := by
        rw [beq_eq_false_iff_ne]
        exact fun he => h he.symm
      rw [hb]
      exact ih

theorem getStats_updateWordCount (s : WordCountSettings)
    (m : List (List Char × DailyStats)) (today fileName : List Char) (ts : Nat)
    (r : TextAnalysisResult) :
    getStats (updateWordCount s m today fileName ts r) today =
      some (updateDaily s ((getStats m today).getD (createEmptyStats today))
        fileName ts r) :=
  lookup_setStats_self m today _

/-- C1: after `update`, today's record holds exactly the six counters of the
given analysis result, `total` is the sum of only the enabled counters, and
`completed = (total > 0)`; a second `update` on the same day overwrites
`total` with the second result's computed total instead of accumulating. -/
theorem updateWordCount_overwrites (s : WordCountSettings)
    (m : List (List Char × DailyStats)) (today f1 f2 : List Char)
    (ts1 ts2 : Nat) (r1 r2 : TextAnalysisResult) :
    (getStats (updateWordCount s m today f1 ts1 r1) today).map DailyStats.chinese
        = some r1.chinese ∧
    (getStats (updateWordCount s m today f1 ts1 r1) today).map DailyStats.english
        = some r1.english ∧
    (getStats (updateWordCount s m today f1 ts1 r1) today).map DailyStats.punctuation
        = some r1.punctuation ∧
    (getStats (updateWordCount s m today f1 ts1 r1) today).map DailyStats.numbers
        = some r1.numbers ∧
    (getStats (updateWordCount s m today f1 ts1 r1) today).map DailyStats.spaces
        = some r1.spaces ∧
    (getStats (updateWordCount s m today f1 ts1 r1) today).map DailyStats.words
        = some r1.words ∧
    (getStats (updateWordCount s m today f1 ts1 r1) today).map DailyStats.total
        = some (computeTotal s r1) ∧
    (getStats (updateWordCount s m today f1 ts1 r1) today).map DailyStats.completed
        = some (decide (0 < computeTotal s r1)) ∧
    (getStats (updateWordCount s (updateWordCount s m today f1 ts1 r1)
        today f2 ts2 r2) today).map DailyStats.total = some (computeTotal s r2) := by
  refine ⟨?_, ?_, ?_, ?_, ?_, ?_, ?_, ?_, ?_⟩ <;>
    rw [getStats_updateWordCount] <;> rfl

/-! ### Change-log bound (C5) -/

/-- The most-recent-`MAX_CHAR_CHANGES` window of a change list
(`slice(-MAX_CHAR_CHANGES)` of the full history). -/
def boundChanges (l : List CharChange) : List CharChange :=
  l.drop (l.length - MAX_CHAR_CHANGES)

theorem boundChanges_of_le (l : List CharChange)
    (h : l.length ≤ MAX_CHAR_CHANGES) : boundChanges l = l := by
  unfold boundChanges
  rw [Nat.sub_eq_zero_of_le h, List.drop_zero]

theorem pushBounded_eq (l : List CharChange) (e : CharChange) :
    pushBounded l e = boundChanges (l ++ [e]) := by
  unfold pushBounded boundChanges
  split
  · rfl
  · rename_i h
    rw [Nat.sub_eq_zero_of_le (by omega), List.drop_zero]

theorem boundChanges_append_boundChanges (l : List CharChange)
    (e : CharChange) :
    boundChanges (boundChanges l ++ [e]) = boundChanges (l ++ [e]) := by
  by_cases h : l.length ≤ MAX_CHAR_CHANGES
  · rw [boundChanges_of_le l h]
  · have hM : MAX_CHAR_CHANGES = 100 := rfl
    unfold boundChanges
    have hlen : (l.drop (l.length - MAX_CHAR_CHANGES)).length = MAX_CHAR_CHANGES := by
      rw [List.length_drop]
      omega
    rw [List.length_append, List.length_append, hlen]
    rw [List.drop_append_eq_append_drop, List.drop_append_eq_append_drop]
    rw [List.drop_drop, hlen]
    have e1 : MAX_CHAR_CHANGES + [e].length - MAX_CHAR_CHANGES - MAX_CHAR_CHANGES = 0 := by
      simp only [List.length_cons, List.length_nil]
      omega
    have e2 : l.length + [e].length - MAX_CHAR_CHANGES - l.length = 0 := by
      simp only [List.length_cons, List.length_nil]
      omega
    rw [e1, e2, List.drop_zero]
    have e3 : l.length - MAX_CHAR_CHANGES + (MAX_CHAR_CHANGES + [e].length - MAX_CHAR_CHANGES) =
        l.length + [e].length - MAX_CHAR_CHANGES := by
      simp only [List.length_cons, List.length_nil]
      omega
    rw [e3]

theorem foldl_pushBounded (es l : List CharChange) :
    es.foldl pushBounded (boundChanges l) = boundChanges (l ++ es) := by
  induction es generalizing l with
  | nil => simp
  | cons e rest ih =>
    simp only [List.foldl_cons]
    rw [pushBounded_eq, boundChanges_append_boundChanges, ih]
    simp

/-- A sequence of `updateWordCount` calls applied to one day's record,
each with a file name, a timestamp and an analysis result. -/
def applyUpdates (s : WordCountSettings) (st : DailyStats)
    (inputs : List (List Char × Nat × TextAnalysisResult)) : DailyStats :=
  inputs.foldl (fun st i => updateDaily s st i.1 i.2.1 i.2.2) st

/-- The change entries appended by those calls, oldest first. -/
def changesOf (s : WordCountSettings)
    (inputs : List (List Char × Nat × TextAnalysisResult)) : List CharChange :=
  inputs.map (fun i => mkCharChange s i.1 i.2.1 i.2.2)

theorem applyUpdates_charChanges (s : WordCountSettings) (st : DailyStats)
    (inputs : List (List Char × Nat × TextAnalysisResult)) :
    (applyUpdates s st inputs).charChanges =
      (changesOf s inputs).foldl pushBounded st.charChanges := by
  induction inputs generalizing st with
  | nil => rfl
  | cons i rest ih =>
    simp only [applyUpdates, changesOf, List.foldl_cons, List.map_cons] at *
    rw [ih]
    rfl

/-- C5: starting from a freshly created day record, any sequence of update
calls leaves at most `MAX_CHAR_CHANGES` (100) change entries, and the list
equals exactly the most recently appended window of the full append history,
oldest first. -/
theorem charChanges_bounded (s : WordCountSettings) (date : List Char)
    (inputs : List (List Char × Nat × TextAnalysisResult)) :
    (applyUpdates s (createEmptyStats date) inputs).charChanges.length ≤
        MAX_CHAR_CHANGES ∧
    (applyUpdates s (createEmptyStats date) inputs).charChanges =
      (changesOf s inputs).drop
        ((changesOf s inputs).length - MAX_CHAR_CHANGES) := by
  have key : (applyUpdates s (createEmptyStats date) inputs).charChanges =
      boundChanges (changesOf s inputs) := by
    rw [applyUpdates_charChanges]
    have h0 : (createEmptyStats date).charChanges = boundChanges [] := rfl
    rw [h0, foldl_pushBounded]
    simp
  constructor
  · rw [key]
    unfold boundChanges
    rw [List.length_drop]
    omega
  · rw [key]
    rfl

/-! ### Settings update (C9) -/

/-- The per-record mutation performed by `StatsManager.updateSettings`:
`goal` is forced to 0 and `completed` is recomputed as `total > 0`. -/
def refreshRecord (st : DailyStats) : DailyStats :=
  { st with goal := 0, completed := decide (0 < st.total) }

/-- `StatsManager.updateSettings(newSettings)` restricted to its effect on
the stored day records (the settings field itself is replaced, which touches
no record). -/
def updateSettingsStats (m : List (List Char × DailyStats)) :
    List (List Char × DailyStats) :=
  m.map (fun kv => (kv.1, refreshRecord kv.2))

/-- Counterexample to C9 as stated: a stored record with `total = 5` but
`completed = false` (obtainable from `loadData`, which defaults a missing
`completed` to `false` without consistency checks) is modified by the
settings update. -/
theorem updateSettingsStats_changes_record :
    updateSettingsStats [(d20240101, { createEmptyStats d20240101 with total := 5 })] ≠
      [(d20240101, { createEmptyStats d20240101 with total := 5 })] := by
  decide

/-- C9 (amended): the settings update never touches the date, the six
counters, `total` or the change log of any stored record; it only rewrites
`goal` to 0 and `completed` to `total > 0`, so a store whose records already
satisfy `goal = 0` and `completed = (total > 0)` is left entirely
unchanged. -/
theorem updateSettingsStats_frame (m : List (List Char × DailyStats)) :
    (∀ st : DailyStats,
      (refreshRecord st).date = st.date ∧
      (refreshRecord st).chinese = st.chinese ∧
      (refreshRecord st).english = st.english ∧
      (refreshRecord st).punctuation = st.punctuation ∧
      (refreshRecord st).numbers = st.numbers ∧
      (refreshRecord st).spaces = st.spaces ∧
      (refreshRecord st).words = st.words ∧
      (refreshRecord st).total = st.total ∧
      (refreshRecord st).charChanges = st.charChanges) ∧
    ((∀ kv ∈ m, kv.2.goal = 0 ∧ kv.2.completed = decide (0 < kv.2.total)) →
      updateSettingsStats m = m) := by
  constructor
  · intro st
    exact ⟨rfl, rfl, rfl, rfl, rfl, rfl, rfl, rfl, rfl⟩
  · intro h
    induction m with
    | nil => rfl
    | cons kv rest ih =>
      have hkv := h kv (List.mem_cons_self kv rest)
      have hrest := fun kv2 hk => h kv2 (List.mem_cons_of_mem kv hk)
      have hr : refreshRecord kv.2 = kv.2 := by
        obtain ⟨hg, hc⟩ := hkv
        obtain ⟨k, v⟩ := kv
        obtain ⟨d, c1, c2, c3, c4, c5, c6, t, g, comp, ch⟩ := v
        simp only at hg hc
        unfold refreshRecord
        simp only
        rw [hg, hc]
      show (kv.1, refreshRecord kv.2) :: updateSettingsStats rest = kv :: rest
      rw [hr, ih hrest]

/-- Witness for C9 (amended): a consistent store is unchanged. -/
theorem updateSettingsStats_frame_witness :
    updateSettingsStats
        [(d20240101, { createEmptyStats d20240101 with total := 5, completed := true })] =
      [(d20240101, { createEmptyStats d20240101 with total := 5, completed := true })] :=
  (updateSettingsStats_frame _).2 (by decide)

/-! ## Character classifier (`TextAnalyzer.countCharacters`,
`src/unnamed/part_000` lines 103-158)

The single-pass loop is embedded with explicit fuel; each iteration
consumes at least one character, so `length + 1` units of fuel always
suffice.  `prevEng` records whether the previous character matched the
English regex (the `i === 0 || !ENGLISH.test(text[i-1])` run-start test). -/

def countGo (s : WordCountSettings) :
    Nat → Bool → List Char → TextAnalysisResult → TextAnalysisResult
  | 0, _, _, acc => acc
  | Nat.succ fuel, prevEng, cs, acc =>
    match cs with
    | [] => acc
    | c :: rest =>
      if s.trackNumbers && (isAsciiDigit c || isFullWidthDigit c) then
        countGo s fuel (isEnglishChar c) rest
          { acc with numbers := acc.numbers + 1 }
      else if s.trackEnglish && isEnglishChar c then
        if !prevEng then
          let run := (c :: rest).takeWhile isEnglishChar
          let rest2 := (c :: rest).dropWhile isEnglishChar
          let acc2 :=
            if !isRomanWord run && run.length > 1 then
              { acc with
                english := acc.english + run.length,
                words := if s.showWordCount then acc.words + 1 else acc.words }
            else if run.length = 1 && isEnglishChar c then
              { acc with english := acc.english + 1 }
            else acc
          countGo s fuel true rest2 acc2
        else
          countGo s fuel (isEnglishChar c) rest acc
      else if s.trackChinese && cjkClassChar c then
        countGo s fuel (isEnglishChar c) rest
          { acc with chinese := acc.chinese + 1 }
      else if s.trackPunctuation && (isPunctChar c || isFullWidthPunct c) then
        countGo s fuel (isEnglishChar c) rest
          { acc with punctuation := acc.punctuation + 1 }
      else if s.trackSpaces && (c = ' ' || c = '\t' || c = '\n' || c = '\r') then
        countGo s fuel (isEnglishChar c) rest
          { acc with spaces := acc.spaces + 1 }
      else
        countGo s fuel (isEnglishChar c) rest acc

/-- `TextAnalyzer.countCharacters`. -/
def countCharacters (s : WordCountSettings) (cs : List Char) :
    TextAnalysisResult :=
  countGo s (cs.length + 1) false cs ⟨0, 0, 0, 0, 0, 0⟩

/-- C2: with alphabetic tracking and word counting enabled (the remaining
toggles arbitrary), classifying the standalone run `III` — a letter run of
length > 1 made only of Roman-numeral letters — counts it in no category;
`abc` gives `english = 3` and one word; the single letter `a` gives
`english = 1` and no word. -/
theorem countCharacters_roman_single (s : WordCountSettings)
    (hE : s.trackEnglish = true) (hW : s.showWordCount = true) :
    ((countCharacters s ['I', 'I', 'I']).english = 0 ∧
     (countCharacters s ['I', 'I', 'I']).words = 0 ∧
     (countCharacters s ['I', 'I', 'I']).chinese = 0 ∧
     (countCharacters s ['I', 'I', 'I']).punctuation = 0 ∧
     (countCharacters s ['I', 'I', 'I']).numbers = 0 ∧
     (countCharacters s ['I', 'I', 'I']).spaces = 0) ∧
    ((countCharacters s ['a', 'b', 'c']).english = 3 ∧
     (countCharacters s ['a', 'b', 'c']).words = 1) ∧
    ((countCharacters s ['a']).english = 1 ∧
     (countCharacters s ['a']).words = 0) := by
  obtain ⟨tc, te, tp, tn, tsp, swc⟩ := s
  dsimp only at hE hW
  subst hE hW
  cases tc <;> cases tp <;> cases tn <;> cases tsp <;> decide

/-- Witness for C2 at the all-enabled settings. -/
theorem countCharacters_roman_single_witness :
    ((countCharacters ⟨true, true, true, true, true, true⟩ ['I', 'I', 'I']).english = 0 ∧
     (countCharacters ⟨true, true, true, true, true, true⟩ ['I', 'I', 'I']).words = 0 ∧
     (countCharacters ⟨true, true, true, true, true, true⟩ ['I', 'I', 'I']).chinese = 0 ∧
     (countCharacters ⟨true, true, true, true, true, true⟩ ['I', 'I', 'I']).punctuation = 0 ∧
     (countCharacters ⟨true, true, true, true, true, true⟩ ['I', 'I', 'I']).numbers = 0 ∧
     (countCharacters ⟨true, true, true, true, true, true⟩ ['I', 'I', 'I']).spaces = 0) ∧
    ((countCharacters ⟨true, true, true, true, true, true⟩ ['a', 'b', 'c']).english = 3 ∧
     (countCharacters ⟨true, true, true, true, true, true⟩ ['a', 'b', 'c']).words = 1) ∧
    ((countCharacters ⟨true, true, true, true, true, true⟩ ['a']).english = 1 ∧
     (countCharacters ⟨true, true, true, true, true, true⟩ ['a']).words = 0) :=
  countCharacters_roman_single ⟨true, true, true, true, true, true⟩ rfl rfl

/-! ## Markup stripper, service variant (`TextAnalyzer.preprocessText`,
`src/unnamed/part_000` lines 82-96)

The function is a chain of eleven global regex replacements followed by a
trim.  Each replacement is embedded as a left-to-right scan that, at every
position, either applies the (deterministic) match of that regex and
continues after it, or copies one character — exactly the behaviour of
`String.replace` with a global regex.  The `m`-flagged patterns anchored at
`^` additionally track whether the previous character of the input was a
newline.  All scanners take fuel; every step consumes at least one input
character, so `length + 1` fuel is always enough. -/

/-- First index at which `pat` occurs as a contiguous sublist. -/
def findSeq (pat : List Char) : List Char → Option Nat
  | [] => if pat.isPrefixOf [] then some 0 else none
  | c :: rest =>
    if pat.isPrefixOf (c :: rest) then some 0
    else (findSeq pat rest).map (· + 1)

/-- First index of character `t`. -/
def findChar (t : Char) : List Char → Option Nat
  | [] => none
  | c :: rest => if c = t then some 0 else (findChar t rest).map (· + 1)

/-- Does the (consumed) text end with a newline?  Used to decide whether the
position after a match is a `^` line start. -/
def endsWithNl (l : List Char) : Bool :=
  l.getLast? = some '\n'

/-- Generic scan for a `g`-flagged (unanchored) regex replacement: the
matcher returns the replacement to emit and the rest of the input after the
match, or `none` when the regex cannot match at this position. -/
def gGo (m : List Char → Option (List Char × List Char)) :
    Nat → List Char → List Char
  | 0, cs => cs
  | Nat.succ _, [] => []
  | Nat.succ fuel, c :: rest =>
    match m (c :: rest) with
    | some (emit, rest2) => emit ++ gGo m fuel rest2
    | none => c :: gGo m fuel rest

def gPass (m : List Char → Option (List Char × List Char)) (cs : List Char) :
    List Char :=
  gGo m (cs.length + 1) cs

/-- Generic scan for a `gm`-flagged `^`-anchored replacement: the matcher is
only tried at line starts and returns whether the match ended with a newline
(so the next position is again a line start) and the rest of the input. -/
def gmGo (m : List Char → Option (Bool × List Char)) :
    Nat → Bool → List Char → List Char
  | 0, _, cs => cs
  | Nat.succ _, _, [] => []
  | Nat.succ fuel, atStart, c :: rest =>
    match (if atStart then m (c :: rest) else none) with
    | some (nl, rest2) => gmGo m fuel nl rest2
    | none => c :: gmGo m fuel (c = '\n') rest

def gmPass (m : List Char → Option (Bool × List Char)) (cs : List Char) :
    List Char :=
  gmGo m (cs.length + 1) true cs

/-- Frontmatter: `/^---[\s\S]*?---\n/gm` replaced by the empty string.  The
lazy body stops at the first later `---` followed by a newline. -/
def fmMatch : List Char → Option (Bool × List Char)
  | c1 :: c2 :: c3 :: rest =>
    if c1 = '-' ∧ c2 = '-' ∧ c3 = '-' then
      match findSeq ['-', '-', '-', '\n'] rest with
      | some i => some (true, rest.drop (i + 4))
      | none => none
    else none
  | _ => none

/-- Fenced code: three backticks, lazily up to the next three backticks,
removed with their content. -/
def cbMatch : List Char → Option (List Char × List Char)
  | c1 :: c2 :: c3 :: rest =>
    if c1 = btick ∧ c2 = btick ∧ c3 = btick then
      match findSeq [btick, btick, btick] rest with
      | some i => some ([], rest.drop (i + 3))
      | none => none
    else none
  | _ => none

/-- Inline code: a backtick, at least one non-backtick, a backtick; removed
with its content. -/
def icMatch : List Char → Option (List Char × List Char)
  | c :: rest =>
    if c = btick then
      match findChar btick rest with
      | some i => if 1 ≤ i then some ([], rest.drop (i + 1)) else none
      | none => none
    else none
  | [] => none

/-- Image: the alt text (first `]`, then `(`, then first `)`) is kept, the
rest of the syntax removed. -/
def imgMatch : List Char → Option (List Char × List Char)
  | c1 :: c2 :: rest =>
    if c1 = '!' ∧ c2 = '[' then
      match findChar ']' rest with
    | some i =>
      match rest.drop (i + 1) with
        | '(' :: rest3 =>
          match findChar ')' rest3 with
          | some j => some (rest.take i, rest3.drop (j + 1))
          | none => none
        | _ => none
      | none => none
    else none
  | _ => none

/-- Link: like images without the leading `!`. -/
def lkMatch : List Char → Option (List Char × List Char)
  | c :: rest =>
    if c = '[' then
      match findChar ']' rest with
      | some i =>
        match rest.drop (i + 1) with
        | '(' :: rest3 =>
          match findChar ')' rest3 with
          | some j => some (rest.take i, rest3.drop (j + 1))
          | none => none
        | _ => none
      | none => none
    else none
  | [] => none

/-- Heading marker: `/^#{1,6}\s+/gm`.  Seven or more hashes make every
backtracked alternative fail, so there is no match then. -/
def hdMatch : List Char → Option (Bool × List Char)
  | c :: rest =>
    if c = '#' then
      let hs := (c :: rest).takeWhile (· = '#')
      let after := (c :: rest).dropWhile (· = '#')
      if hs.length ≤ 6 ∧ after.head?.any isJsWs then
        some (endsWithNl (after.takeWhile isJsWs), after.dropWhile isJsWs)
      else none
    else none
  | [] => none

/-- Quote marker: `/^>\s*/gm`; `\s*` may be empty, the `>` always
matches. -/
def qtMatch : List Char → Option (Bool × List Char)
  | c :: rest =>
    if c = '>' then
      some (endsWithNl ('>' :: rest.takeWhile isJsWs), rest.dropWhile isJsWs)
    else none
  | [] => none

/-- List marker: `/^[-*+]\s+/gm`. -/
def lsMatch : List Char → Option (Bool × List Char)
  | c :: rest =>
    if (c = '-' ∨ c = '*' ∨ c = '+') ∧ rest.head?.any isJsWs then
      some (endsWithNl (rest.takeWhile isJsWs), rest.dropWhile isJsWs)
    else none
  | [] => none

/-- Task-list marker: `/^\[[ x]\]\s+/gm`. -/
def tlMatch : List Char → Option (Bool × List Char)
  | c1 :: c2 :: c3 :: rest =>
    if c1 = '[' ∧ (c2 = ' ' ∨ c2 = 'x') ∧ c3 = ']' ∧ rest.head?.any isJsWs then
      some (endsWithNl (rest.takeWhile isJsWs), rest.dropWhile isJsWs)
    else none
  | _ => none

/-- HTML tag: `/<[^>]+>/g`. -/
def htmlMatch : List Char → Option (List Char × List Char)
  | c :: rest =>
    if c = '<' then
      match findChar '>' rest with
      | some i => if 1 ≤ i then some ([], rest.drop (i + 1)) else none
      | none => none
    else none
  | [] => none

/-- Whitespace collapse: `/\s+/g` replaced by a single space. -/
def wsMatch : List Char → Option (List Char × List Char)
  | c :: rest =>
    if isJsWs c then some ([' '], rest.dropWhile isJsWs) else none
  | [] => none

/-- JavaScript `String.prototype.trim`. -/
def jsTrim (cs : List Char) : List Char :=
  ((cs.dropWhile isJsWs).reverse.dropWhile isJsWs).reverse

/-- `TextAnalyzer.preprocessText`: the eleven replacements in source order,
then `trim()`. -/
def preprocessText1 (cs : List Char) : List Char :=
  jsTrim (gPass wsMatch (gPass htmlMatch (gmPass tlMatch (gmPass lsMatch
    (gmPass qtMatch (gmPass hdMatch (gPass lkMatch (gPass imgMatch
      (gPass icMatch (gPass cbMatch (gmPass fmMatch cs)))))))))))

/-! ### Idempotence analysis for `preprocessText1` (C6)

The chain is not idempotent: an anchored `gm` replacement consumes its match
and resumes searching after it, so a second marker immediately following a
removed one is no longer at a recognised line start and survives the first
pass, only to sit at a line start of the output.  `"> > q"` strips to
`"> q"`, which strips again to `"q"`.

On the other hand the chain is the identity on "plain" text: text containing
none of the marker characters, whose only whitespace is single spaces, and
which neither starts nor ends with a space.  This gives the amended claim:
a second strip is a no-op whenever the first strip's output is plain. -/

/-- A character none of the eleven replacements can start (or continue) a
match on: not a marker (`-`, `*`, `+`, backtick, `[`, `#`, `>`, `<`) and, if
whitespace, exactly a space. -/
def plainChar (c : Char) : Bool :=
  !(c = '-' || c = '*' || c = '+' || c = btick || c = '[' || c = '#' ||
    c = '>' || c = '<') &&
  (!isJsWs c || c = ' ')

def noTwoSpaces : List Char → Bool
  | a :: b :: rest => !(a = ' ' && b = ' ') && noTwoSpaces (b :: rest)
  | _ => true

/-- Markup-free text: every character is plain, no doubled spaces, and no
leading or trailing space. -/
def PlainText (cs : List Char) : Bool :=
  cs.all plainChar && noTwoSpaces cs &&
  !(cs.head?.any (· = ' ')) && !(cs.getLast?.any (· = ' '))

theorem plainChar_ne (c t : Char) (h : plainChar c = true)
    (ht : plainChar t = false) : c ≠ t := by
  intro he
  rw [he, ht] at h
  exact Bool.false_ne_true h

theorem plainChar_ws (c : Char) (h : plainChar c = true)
    (hw : isJsWs c = true) : c = ' ' := by
  unfold plainChar at h
  rw [Bool.and_eq_true, hw] at h
  simpa using h.2

theorem noTwoSpaces_tail (a : Char) (l : List Char)
    (h : noTwoSpaces (a :: l) = true) : noTwoSpaces l = true := by
  match l with
  | [] => rfl
  | b :: rest =>
    unfold noTwoSpaces at h
    rw [Bool.and_eq_true] at h
    exact h.2

/-- A `gm` pass whose matcher never fires on plain text is the identity. -/
theorem gmGo_plain_id (m : List Char → Option (Bool × List Char))
    (hm : ∀ c rest, plainChar c = true →
      (∀ c2 ∈ rest, plainChar c2 = true) → m (c :: rest) = none)
    (fuel : Nat) (atStart : Bool) (cs : List Char)
    (h : ∀ c ∈ cs, plainChar c = true) :
    gmGo m fuel atStart cs = cs := by
  induction fuel generalizing atStart cs with
  | zero => rfl
  | succ fuel ih =>
    match cs with
    | [] => rfl
    | c :: rest =>
      have hc := h c (List.mem_cons_self c rest)
      have hrest := fun c2 hc2 => h c2 (List.mem_cons_of_mem c hc2)
      have hn := hm c rest hc hrest
      simp only [gmGo, hn, ite_self]
      exact congrArg (List.cons c) (ih (c = '\n') rest hrest)

/-- A `g` pass whose matcher never fires on plain text is the identity. -/
theorem gGo_plain_id (m : List Char → Option (List Char × List Char))
    (hm : ∀ c rest, plainChar c = true →
      (∀ c2 ∈ rest, plainChar c2 = true) → m (c :: rest) = none)
    (fuel : Nat) (cs : List Char)
    (h : ∀ c ∈ cs, plainChar c = true) :
    gGo m fuel cs = cs := by
  induction fuel generalizing cs with
  | zero => rfl
  | succ fuel ih =>
    match cs with
    | [] => rfl
    | c :: rest =>
      have hc := h c (List.mem_cons_self c rest)
      have hrest := fun c2 hc2 => h c2 (List.mem_cons_of_mem c hc2)
      have hn := hm c rest hc hrest
      simp only [gGo, hn]
      exact congrArg (List.cons c) (ih rest hrest)

theorem fmMatch_plain (c : Char) (rest : List Char) (h : plainChar c = true)
    (_ : ∀ c2 ∈ rest, plainChar c2 = true) : fmMatch (c :: rest) = none := by
  have hc : c ≠ '-' := plainChar_ne c '-' h (by decide)
  match rest with
  | [] => rfl
  | [c2] => rfl
  | c2 :: c3 :: rest =>
    exact if_neg fun hh => hc hh.1

theorem cbMatch_plain (c : Char) (rest : List Char) (h : plainChar c = true)
    (_ : ∀ c2 ∈ rest, plainChar c2 = true) : cbMatch (c :: rest) = none := by
  have hc : c ≠ btick := plainChar_ne c btick h (by decide)
  match rest with
  | [] => rfl
  | [c2] => rfl
  | c2 :: c3 :: rest =>
    exact if_neg fun hh => hc hh.1

theorem icMatch_plain (c : Char) (rest : List Char) (h : plainChar c = true)
    (_ : ∀ c2 ∈ rest, plainChar c2 = true) : icMatch (c :: rest) = none := by
  have hc : c ≠ btick := plainChar_ne c btick h (by decide)
  exact if_neg hc

theorem imgMatch_plain (c : Char) (rest : List Char) (_ : plainChar c = true)
    (h2 : ∀ c2 ∈ rest, plainChar c2 = true) : imgMatch (c :: rest) = none := by
  match rest with
  | [] => rfl
  | c2 :: rest2 =>
    have hc2 : c2 ≠ '[' :=
      plainChar_ne c2 '[' (h2 c2 (List.mem_cons_self c2 rest2)) (by decide)
    exact if_neg fun hh => hc2 hh.2

theorem lkMatch_plain (c : Char) (rest : List Char) (h : plainChar c = true)
    (_ : ∀ c2 ∈ rest, plainChar c2 = true) : lkMatch (c :: rest) = none := by
  have hc : c ≠ '[' := plainChar_ne c '[' h (by decide)
  exact if_neg hc

theorem hdMatch_plain (c : Char) (rest : List Char) (h : plainChar c = true)
    (_ : ∀ c2 ∈ rest, plainChar c2 = true) : hdMatch (c :: rest) = none := by
  have hc : c ≠ '#' := plainChar_ne c '#' h (by decide)
  simp only [hdMatch, if_neg hc]

theorem qtMatch_plain (c : Char) (rest : List Char) (h : plainChar c = true)
    (_ : ∀ c2 ∈ rest, plainChar c2 = true) : qtMatch (c :: rest) = none := by
  have hc : c ≠ '>' := plainChar_ne c '>' h (by decide)
  exact if_neg hc

theorem lsMatch_plain (c : Char) (rest : List Char) (h : plainChar c = true)
    (_ : ∀ c2 ∈ rest, plainChar c2 = true) : lsMatch (c :: rest) = none := by
  have h1 : c ≠ '-' := plainChar_ne c '-' h (by decide)
  have h2 : c ≠ '*' := plainChar_ne c '*' h (by decide)
  have h3 : c ≠ '+' := plainChar_ne c '+' h (by decide)
  refine if_neg fun hh => ?_
  rcases hh.1 with he | he | he
  · exact h1 he
  · exact h2 he
  · exact h3 he

theorem tlMatch_plain (c : Char) (rest : List Char) (h : plainChar c = true)
    (_ : ∀ c2 ∈ rest, plainChar c2 = true) : tlMatch (c :: rest) = none := by
  have hc : c ≠ '[' := plainChar_ne c '[' h (by decide)
  match rest with
  | [] => rfl
  | [c2] => rfl
  | c2 :: c3 :: rest =>
    exact if_neg fun hh => hc hh.1

theorem htmlMatch_plain (c : Char) (rest : List Char) (h : plainChar c = true)
    (_ : ∀ c2 ∈ rest, plainChar c2 = true) : htmlMatch (c :: rest) = none := by
  have hc : c ≠ '<' := plainChar_ne c '<' h (by decide)
  exact if_neg hc

/-- The whitespace-collapse pass is the identity when the only whitespace is
single spaces. -/
theorem gGo_ws_id (fuel : Nat) (cs : List Char)
    (hall : ∀ c ∈ cs, plainChar c = true)
    (hnts : noTwoSpaces cs = true) :
    gGo wsMatch fuel cs = cs := by
  induction fuel generalizing cs with
  | zero => rfl
  | succ fuel ih =>
    match cs with
    | [] => rfl
    | c :: rest =>
      have hc := hall c (List.mem_cons_self c rest)
      have hrest := fun c2 hc2 => hall c2 (List.mem_cons_of_mem c hc2)
      have hnr := noTwoSpaces_tail c rest hnts
      by_cases hws : isJsWs c = true
      · have hsp : c = ' ' := plainChar_ws c hc hws
        have hdrop : rest.dropWhile isJsWs = rest := by
          match rest with
          | [] => rfl
          | d :: rest2 =>
            have hd : isJsWs d = false := by
              by_contra hdt
              have hd2 : d = ' ' := plainChar_ws d
                (hrest d (List.mem_cons_self d rest2))
                (Bool.of_not_eq_false hdt)
              rw [hsp, hd2] at hnts
              simp [noTwoSpaces] at hnts
            rw [List.dropWhile_cons, hd]
            simp
        simp only [gGo, wsMatch, if_pos hws, hdrop]
        rw [hsp]
        exact congrArg (List.cons ' ') (ih rest hrest hnr)
      · simp only [gGo, wsMatch, if_neg hws]
        exact congrArg (List.cons c) (ih rest hrest hnr)

theorem dropWhile_eq_self_of_head (p : Char → Bool) (cs : List Char)
    (h : cs.head?.any p = false) : cs.dropWhile p = cs := by
  match cs with
  | [] => rfl
  | c :: rest =>
    simp only [List.head?, Option.any_some] at h
    rw [List.dropWhile_cons, h]
    simp

/-- `trim()` is the identity when neither end is whitespace. -/
theorem jsTrim_id (cs : List Char)
    (hh : cs.head?.any isJsWs = false)
    (hl : cs.getLast?.any isJsWs = false) : jsTrim cs = cs := by
  unfold jsTrim
  rw [dropWhile_eq_self_of_head isJsWs cs hh]
  rw [dropWhile_eq_self_of_head isJsWs cs.reverse (by rwa [List.head?_reverse])]
  exact List.reverse_reverse cs

/-- Stripping is the identity on plain text. -/
theorem preprocessText1_plain_id (cs : List Char) (h : PlainText cs = true) :
    preprocessText1 cs = cs := by
  unfold PlainText at h
  simp only [Bool.and_eq_true] at h
  obtain ⟨⟨⟨hall, hnts⟩, hh⟩, hl⟩ := h
  have hallp : ∀ c ∈ cs, plainChar c = true := by
    intro c hc
    exact List.all_eq_true.1 hall c hc
  have hhw : cs.head?.any isJsWs = false := by
    match cs with
    | [] => rfl
    | c :: rest =>
      simp only [List.head?, Option.any_some] at hh ⊢
      by_contra hws
      have := plainChar_ws c (hallp c (List.mem_cons_self c rest))
        (Bool.of_not_eq_false hws)
      rw [this] at hh
      simp at hh
  have hlw : cs.getLast?.any isJsWs = false := by
    cases he : cs.getLast? with
    | none => simp
    | some c =>
      have hmem : c ∈ cs := by
        have hopt : c ∈ cs.getLast? := by
          rw [Option.mem_def]
          exact he
        obtain ⟨hne, heq⟩ := List.mem_getLast?_eq_getLast hopt
        rw [heq]
        exact List.getLast_mem hne
      rw [he] at hl
      simp only [Option.any_some] at hl ⊢
      by_contra hws
      have := plainChar_ws c (hallp c hmem) (Bool.of_not_eq_false hws)
      rw [this] at hl
      simp at hl
  unfold preprocessText1 gmPass gPass
  rw [gmGo_plain_id fmMatch fmMatch_plain _ _ _ hallp]
  rw [gGo_plain_id cbMatch cbMatch_plain _ _ hallp]
  rw [gGo_plain_id icMatch icMatch_plain _ _ hallp]
  rw [gGo_plain_id imgMatch imgMatch_plain _ _ hallp]
  rw [gGo_plain_id lkMatch lkMatch_plain _ _ hallp]
  rw [gmGo_plain_id hdMatch hdMatch_plain _ _ _ hallp]
  rw [gmGo_plain_id qtMatch qtMatch_plain _ _ _ hallp]
  rw [gmGo_plain_id lsMatch lsMatch_plain _ _ _ hallp]
  rw [gmGo_plain_id tlMatch tlMatch_plain _ _ _ hallp]
  rw [gGo_plain_id htmlMatch htmlMatch_plain _ _ hallp]
  rw [gGo_ws_id _ _ hallp hnts]
  exact jsTrim_id cs hhw hlw

/-- Counterexample to C6 as stated: the quote-marker pass strips one
line-leading `>` per pass, so `"> > q"` strips to `"> q"` but stripping
again gives `"q"`. -/
theorem preprocessText1_not_idempotent :
    preprocessText1 (preprocessText1 ['>', ' ', '>', ' ', 'q']) ≠
      preprocessText1 ['>', ' ', '>', ' ', 'q'] := by
  decide

/-- C6 (amended): stripping is idempotent on every input whose stripped form
is plain (free of the stripper's marker characters, with only single
spaces); full idempotence fails, e.g. on `"> > q"`. -/
theorem preprocessText1_idempotent_on_plain (cs : List Char)
    (h : PlainText (preprocessText1 cs) = true) :
    preprocessText1 (preprocessText1 cs) = preprocessText1 cs :=
  preprocessText1_plain_id (preprocessText1 cs) h

/-- Witness for the amended C6. -/
theorem preprocessText1_idempotent_on_plain_witness :
    PlainText (preprocessText1 ['h', 'i', ' ', 'y', 'o', 'u']) = true ∧
    preprocessText1 (preprocessText1 ['h', 'i', ' ', 'y', 'o', 'u']) =
      preprocessText1 ['h', 'i', ' ', 'y', 'o', 'u'] :=
  ⟨by decide, preprocessText1_idempotent_on_plain _ (by decide)⟩

/-- Counterexample to C7 as stated for the service-layer stripper: fenced
code blocks and inline code spans are removed together with their content,
not copied verbatim. -/
theorem preprocessText1_removes_code :
    preprocessText1 [btick, btick, btick, 'a', 'b', 'c', btick, btick, btick] = [] ∧
    preprocessText1 [btick, 'a', 'b', btick] = [] := by
  decide

/-! ## Markup stripper, legacy state-machine variant
(`WordCountPlugin.preprocessText`, `src/unnamed/part_002` lines 271-474)

The per-character loop carries four boolean mode flags and performs indexed
lookaheads; we embed it with explicit fuel and a `prevNl` flag standing for
`i === 0 || text[i-1] === '\n'`.  Any line whose first character is `>`
makes the source loop spin without advancing `i` (the inner `while` skips
spaces but `text[i]` is `'>'`, after which `i--; continue` undoes the `i++`);
the embedding models that genuine non-termination by returning `none` when
the fuel — enough for every terminating run — is exhausted. -/

structure ScanSt where
  inCodeBlock : Bool
  inInlineCode : Bool
  inMathBlock : Bool
  inHtmlTag : Bool
  deriving Repr, DecidableEq

def initScanSt : ScanSt := ⟨false, false, false, false⟩

/-- The `<` branch: find `>`; an HTML comment is skipped outright, an
opening/self-closing tag is skipped and sets `inHtmlTag`; a closing tag
(contains `/` not at the end) falls through to the later branches. -/
def tagSkip (rest : List Char) : Option (Bool × List Char) :=
  match findChar '>' rest with
  | none => none
  | some j =>
    let content := rest.take j
    if content.take 3 = ['!', '-', '-'] then some (false, rest.drop (j + 1))
    else if content.contains '/' = false ∨ content.getLast? = some '/' then
      some (true, rest.drop (j + 1))
    else none

/-- Link/image tail: after the `[`, locate the first `]`, require `(`, locate
the first `)`; returns the bracketed text and the rest after `)`. -/
def linkSkip (rest : List Char) : Option (List Char × List Char) :=
  match findChar ']' rest with
  | none => none
  | some j =>
    match rest.drop (j + 1) with
    | '(' :: rest4 =>
      match findChar ')' rest4 with
      | some k => some (rest.take j, rest4.drop (k + 1))
      | none => none
    | _ => none

/-- Task-list tail: after the line-leading `[`, a space or `x`, the first
`]`, and a following space. -/
def taskSkip (rest : List Char) : Option (List Char) :=
  match rest with
  | x :: rest2 =>
    if x = ' ' ∨ x = 'x' then
      match findChar ']' rest2 with
      | some j =>
        match rest2.drop (j + 1) with
        | ' ' :: rest3 => some rest3
        | _ => none
      | none => none
    else none
  | [] => none

def scan2 : Nat → ScanSt → Bool → List Char → Option (List Char)
  | 0, _, _, _ => none
  | Nat.succ _, _, _, [] => some []
  | Nat.succ fuel, st, prevNl, c :: rest =>
    if st.inInlineCode = false ∧ c = '$' ∧ rest.head? = some '$' then
      scan2 fuel { st with inMathBlock := !st.inMathBlock } false rest.tail
    else if st.inCodeBlock = false ∧ c = '$' then
      scan2 fuel { st with inInlineCode := !st.inInlineCode } false rest
    else if st.inInlineCode = false ∧ c = btick ∧ rest.take 2 = [btick, btick] then
      scan2 fuel { st with inCodeBlock := !st.inCodeBlock } false (rest.drop 2)
    else if st.inMathBlock = false ∧ c = btick then
      scan2 fuel { st with inInlineCode := !st.inInlineCode } false rest
    else if st.inCodeBlock = true ∨ st.inInlineCode = true ∨ st.inMathBlock = true then
      (scan2 fuel st (c = '\n') rest).map (c :: ·)
    else
      match (if c = '<' then tagSkip rest else none) with
      | some (setTag, rest2) =>
        scan2 fuel (if setTag then { st with inHtmlTag := true } else st)
          false rest2
      | none =>
        if st.inHtmlTag = true then
          scan2 fuel (if c = '>' then { st with inHtmlTag := false } else st)
            (c = '\n') rest
        else
          match (if c = '[' ∧ st.inInlineCode = false then linkSkip rest
              else none) with
          | some (emit, rest2) => (scan2 fuel st false rest2).map (emit ++ ·)
          | none =>
            match (if c = '!' ∧ rest.head? = some '[' ∧ st.inInlineCode = false
                then linkSkip rest.tail else none) with
            | some (emit, rest2) => (scan2 fuel st false rest2).map (emit ++ ·)
            | none =>
              if c = '#' ∧ prevNl = true then
                scan2 fuel st false
                  (((c :: rest).dropWhile (· = '#')).dropWhile (· = ' '))
              else if c = '>' ∧ prevNl = true then
                scan2 fuel st prevNl (c :: rest)
              else if (c = '-' ∨ c = '*' ∨ c = '+') ∧ prevNl = true ∧
                  rest.head? = some ' ' then
                scan2 fuel st false rest.tail
              else
                match (if c = '[' ∧ prevNl = true then taskSkip rest
                    else none) with
                | some rest2 => scan2 fuel st false rest2
                | none =>
                  if c = '-' ∧ prevNl = true ∧
                      3 ≤ ((c :: rest).takeWhile (· = '-')).length ∧
                      ((c :: rest).dropWhile (· = '-') = [] ∨
                        ((c :: rest).dropWhile (· = '-')).head? = some '\n') then
                    match (c :: rest).dropWhile (· = '-') with
                    | [] => some []
                    | _ :: rest5 => scan2 fuel st true rest5
                  else if c = '|' ∧ prevNl = true ∧
                      ((c :: rest).takeWhile (· ≠ '\n')).contains '-' = true then
                    match (c :: rest).dropWhile (· ≠ '\n') with
                    | [] => some []
                    | _ :: rest6 => scan2 fuel st true rest6
                  else
                    (scan2 fuel st (c = '\n') rest).map (c :: ·)

/-- The frontmatter pre-check plus the scan: when the text starts with `---`
and contains a later `---`, all characters up to its end are skipped and the
retained newline is emitted; scanning resumes with the previous character
being `-` (not a line start). -/
def preprocessScan2 (cs : List Char) : Option (List Char) :=
  if cs.take 3 = ['-', '-', '-'] then
    match findSeq ['-', '-', '-'] (cs.drop 3) with
    | some i =>
      (scan2 (cs.length + 1) initScanSt false (cs.drop (i + 6))).map ('\n' :: ·)
    | none => scan2 (cs.length + 1) initScanSt true cs
  else scan2 (cs.length + 1) initScanSt true cs

/-- Post-pass `/[ \t]+/g` → one space. -/
def stMatch : List Char → Option (List Char × List Char)
  | c :: rest =>
    if c = ' ' ∨ c = '\t' then
      some ([' '], rest.dropWhile (fun d => d = ' ' ∨ d = '\t'))
    else none
  | [] => none

/-- Last index of a newline. -/
def findLastNl (w : List Char) : Option Nat :=
  (findChar '\n' w.reverse).map (fun j => w.length - 1 - j)

/-- Post-pass `/\n\s*\n/g` → `"\n\n"`: greedy `\s*` backtracks to the last
newline of the whitespace run. -/
def blankMatch : List Char → Option (List Char × List Char)
  | c :: rest =>
    if c = '\n' then
      let w := rest.takeWhile isJsWs
      if w.contains '\n' = true then
        match findLastNl w with
        | some k => some (['\n', '\n'], rest.drop (k + 1))
        | none => none
      else none
    else none
  | [] => none

/-- The post-normalisation of `WordCountPlugin.preprocessText`. -/
def postNorm2 (cs : List Char) : List Char :=
  jsTrim (gPass blankMatch (gPass stMatch cs))

/-- `WordCountPlugin.preprocessText`; `none` marks the source's
non-terminating inputs. -/
def preprocessText2 (cs : List Char) : Option (List Char) :=
  (preprocessScan2 cs).map postNorm2

/-! ### Code regions are copied verbatim by the state-machine stripper (C7)

Inside a fenced block every character is emitted by the
`inCodeBlock` copy branch, provided it does not itself toggle a mode: a
backtick would close the fence (or toggle inline code) and a `$$` pair
would toggle math mode.  Inside an inline span a single `$` also toggles
(the source reuses the `inInlineCode` flag for inline math).  The
post-normalisation additionally collapses space/tab runs and blank lines,
so verbatim preservation holds for content without tabs, newlines and
doubled spaces. -/

def noDoubleDollar : List Char → Bool
  | a :: b :: rest => !(a = '$' && b = '$') && noDoubleDollar (b :: rest)
  | _ => true

theorem noDoubleDollar_tail (a : Char) (l : List Char)
    (h : noDoubleDollar (a :: l) = true) : noDoubleDollar l = true := by
  match l with
  | [] => rfl
  | b :: rest =>
    unfold noDoubleDollar at h
    rw [Bool.and_eq_true] at h
    exact h.2

theorem head_fence_ne_dollar (cnt : List Char) (a : Char)
    (hd : noDoubleDollar (a :: cnt) = true) :
    ¬(a = '$' ∧ (cnt ++ [btick, btick, btick]).head? = some '$') := by
  match cnt with
  | [] =>
    rintro ⟨ha, hh⟩
    rw [List.nil_append] at hh
    exact absurd hh (by decide)
  | b :: cnt2 =>
    rintro ⟨ha, hh⟩
    rw [List.cons_append] at hh
    have hb : b = '$' := by simpa using hh
    rw [ha, hb] at hd
    simp [noDoubleDollar] at hd

theorem take2_append_ne (cnt : List Char) (h : ∀ c ∈ cnt, c ≠ btick) :
    ¬((cnt ++ [btick]).take 2 = [btick, btick]) := by
  match cnt with
  | [] => decide
  | b :: cnt2 =>
    intro hh
    rw [List.cons_append] at hh
    have hb : b = btick := by
      have := congrArg List.head? hh
      simpa using this
    exact h b (List.mem_cons_self b cnt2) hb

theorem scan2_in_code (cnt : List Char) : ∀ (fuel : Nat) (prevNl : Bool),
    (∀ c ∈ cnt, c ≠ btick) → noDoubleDollar cnt = true →
    cnt.length + 2 ≤ fuel →
    scan2 fuel ⟨true, false, false, false⟩ prevNl
      (cnt ++ [btick, btick, btick]) = some cnt := by
  induction cnt with
  | nil =>
    intro fuel prevNl _ _ hf
    match fuel, hf with
    | Nat.succ f, hf =>
      simp only [List.nil_append, scan2]
      rw [if_neg (fun h => absurd h.2.1 (by decide))]
      rw [if_neg (fun h => absurd h.1 (by decide))]
      rw [if_pos (by exact ⟨by trivial, by trivial, by trivial⟩)]
      match f, (by omega : 1 ≤ f) with
      | Nat.succ f2, _ => rfl
  | cons a cnt ih =>
    intro fuel prevNl hb hd hf
    have hab : a ≠ btick := hb a (List.mem_cons_self a cnt)
    have hbr := fun c hc => hb c (List.mem_cons_of_mem a hc)
    have hdr : noDoubleDollar cnt = true := noDoubleDollar_tail a cnt hd
    have hnd := head_fence_ne_dollar cnt a hd
    match fuel, hf with
    | Nat.succ f, hf =>
      simp only [List.cons_append, scan2]
      rw [if_neg (fun h => hnd ⟨h.2.1, h.2.2⟩)]
      rw [if_neg (fun h => absurd h.1 (by decide))]
      rw [if_neg (fun h => hab h.2.1)]
      rw [if_neg (fun h => hab h.2)]
      rw [if_pos (by exact Or.inl (by trivial))]
      rw [show List.append cnt [btick, btick, btick] = cnt ++ [btick, btick, btick]
        from rfl]
      rw [ih f (decide (a = '\n')) hbr hdr
        (by simp only [List.length_cons] at hf; omega)]
      rfl

theorem scan2_in_inline (cnt : List Char) : ∀ (fuel : Nat) (prevNl : Bool),
    (∀ c ∈ cnt, c ≠ btick) → (∀ c ∈ cnt, c ≠ '$') →
    cnt.length + 2 ≤ fuel →
    scan2 fuel ⟨false, true, false, false⟩ prevNl (cnt ++ [btick]) =
      some cnt := by
  induction cnt with
  | nil =>
    intro fuel prevNl _ _ hf
    match fuel, hf with
    | Nat.succ f, hf =>
      simp only [List.nil_append, scan2]
      rw [if_neg (fun h => absurd h.1 (by decide))]
      rw [if_neg (fun h => absurd h.2 (by decide))]
      rw [if_neg (fun h => absurd h.1 (by decide))]
      rw [if_pos (by exact ⟨by trivial, by trivial⟩)]
      match f, (by omega : 1 ≤ f) with
      | Nat.succ f2, _ => rfl
  | cons a cnt ih =>
    intro fuel prevNl hb hdol hf
    have hab : a ≠ btick := hb a (List.mem_cons_self a cnt)
    have had : a ≠ '$' := hdol a (List.mem_cons_self a cnt)
    have hbr := fun c hc => hb c (List.mem_cons_of_mem a hc)
    have hdr := fun c hc => hdol c (List.mem_cons_of_mem a hc)
    match fuel, hf with
    | Nat.succ f, hf =>
      simp only [List.cons_append, scan2]
      rw [if_neg (fun h => absurd h.1 (by decide))]
      rw [if_neg (fun h => had h.2)]
      rw [if_neg (fun h => absurd h.1 (by decide))]
      rw [if_neg (fun h => hab h.2)]
      rw [if_pos (by exact Or.inr (Or.inl (by trivial)))]
      rw [show List.append cnt [btick] = cnt ++ [btick] from rfl]
      rw [ih f (decide (a = '\n')) hbr hdr
        (by simp only [List.length_cons] at hf; omega)]
      rfl

theorem scan2_full_fence (cnt : List Char) (fuel : Nat) (prevNl : Bool)
    (hb : ∀ c ∈ cnt, c ≠ btick) (hd : noDoubleDollar cnt = true)
    (hf : cnt.length + 3 ≤ fuel) :
    scan2 fuel initScanSt prevNl
      (btick :: btick :: btick :: (cnt ++ [btick, btick, btick])) =
      some cnt := by
  match fuel, hf with
  | Nat.succ f, hf =>
    simp only [scan2]
    rw [if_neg (fun h => absurd h.2.1 (by decide))]
    rw [if_neg (fun h => absurd h.2 (by decide))]
    rw [if_pos (by exact ⟨by trivial, by trivial, by trivial⟩)]
    exact scan2_in_code cnt f _ hb hd (by omega)

theorem scan2_full_inline (cnt : List Char) (fuel : Nat) (prevNl : Bool)
    (hb : ∀ c ∈ cnt, c ≠ btick) (hdol : ∀ c ∈ cnt, c ≠ '$')
    (hf : cnt.length + 3 ≤ fuel) :
    scan2 fuel initScanSt prevNl (btick :: (cnt ++ [btick])) = some cnt := by
  match fuel, hf with
  | Nat.succ f, hf =>
    simp only [scan2]
    rw [if_neg (fun h => absurd h.2.1 (by decide))]
    rw [if_neg (fun h => absurd h.2 (by decide))]
    rw [if_neg (fun h => take2_append_ne cnt hb h.2.2)]
    rw [if_pos (by exact ⟨by trivial, by trivial⟩)]
    exact scan2_in_inline cnt f _ hb hdol (by omega)

/-- The space/tab-collapsing pass is the identity without tabs and doubled
spaces. -/
theorem gGo_st_id (fuel : Nat) (cs : List Char)
    (hall : ∀ c ∈ cs, c ≠ '\t') (hnts : noTwoSpaces cs = true) :
    gGo stMatch fuel cs = cs := by
  induction fuel generalizing cs with
  | zero => rfl
  | succ fuel ih =>
    match cs with
    | [] => rfl
    | c :: rest =>
      have hct := hall c (List.mem_cons_self c rest)
      have hrest := fun c2 hc2 => hall c2 (List.mem_cons_of_mem c hc2)
      have hnr := noTwoSpaces_tail c rest hnts
      by_cases hsp : c = ' ' ∨ c = '\t'
      · have hc : c = ' ' := by
          rcases hsp with h | h
          · exact h
          · exact absurd h hct
        have hdrop : rest.dropWhile (fun d => d = ' ' ∨ d = '\t') = rest := by
          match rest with
          | [] => rfl
          | d :: rest2 =>
            have hd : ¬(d = ' ' ∨ d = '\t') := by
              rintro (hds | hdt)
              · rw [hc, hds] at hnts
                simp [noTwoSpaces] at hnts
              · exact hrest d (List.mem_cons_self d rest2) hdt
            rw [List.dropWhile_cons]
            simp only [hd]
            simp
        simp only [gGo, stMatch, if_pos hsp, hdrop]
        rw [hc]
        exact congrArg (List.cons ' ') (ih rest hrest hnr)
      · simp only [gGo, stMatch, if_neg hsp]
        exact congrArg (List.cons c) (ih rest hrest hnr)

/-- The blank-line pass is the identity without newlines. -/
theorem gGo_blank_id (fuel : Nat) (cs : List Char)
    (hall : ∀ c ∈ cs, c ≠ '\n') : gGo blankMatch fuel cs = cs := by
  induction fuel generalizing cs with
  | zero => rfl
  | succ fuel ih =>
    match cs with
    | [] => rfl
    | c :: rest =>
      have hc := hall c (List.mem_cons_self c rest)
      have hrest := fun c2 hc2 => hall c2 (List.mem_cons_of_mem c hc2)
      simp only [gGo, blankMatch, if_neg hc]
      exact congrArg (List.cons c) (ih rest hrest)

theorem postNorm2_id (cs : List Char)
    (ht : ∀ c ∈ cs, c ≠ '\t') (hn : ∀ c ∈ cs, c ≠ '\n')
    (hnts : noTwoSpaces cs = true)
    (hh : cs.head?.any isJsWs = false)
    (hl : cs.getLast?.any isJsWs = false) : postNorm2 cs = cs := by
  unfold postNorm2 gPass
  rw [gGo_st_id _ _ ht hnts, gGo_blank_id _ _ hn]
  exact jsTrim_id cs hh hl

/-- Content safe to appear verbatim inside a code region: no backtick (it
would end the region or toggle inline code), no `$$` pair (math-mode
toggle), and nothing the post-normalisation rewrites (tabs, newlines,
doubled spaces, whitespace at either end). -/
def VerbatimSafe (cnt : List Char) : Bool :=
  cnt.all (fun c => !(c = btick) && !(c = '\t') && !(c = '\n')) &&
  noDoubleDollar cnt && noTwoSpaces cnt &&
  !(cnt.head?.any isJsWs) && !(cnt.getLast?.any isJsWs)

/-- C7 (amended): the legacy state-machine stripper
(`WordCountPlugin.preprocessText`) copies the content of fenced code blocks
and inline code spans verbatim into its output — for fenced content free of
backticks and `$$` pairs, and inline content additionally free of `$` —
provided the post-normalisation leaves it alone (no tabs, newlines, doubled
spaces or edge whitespace).  The service-layer stripper
(`TextAnalyzer.preprocessText`) instead deletes such regions outright (see
the counterexample). -/
theorem preprocessText2_code_verbatim (cnt : List Char) :
    (VerbatimSafe cnt = true →
      preprocessText2 ([btick, btick, btick] ++ (cnt ++ [btick, btick, btick]))
        = some cnt) ∧
    (VerbatimSafe cnt = true → (∀ c ∈ cnt, c ≠ '$') →
      preprocessText2 (btick :: (cnt ++ [btick])) = some cnt) := by
  have extract : VerbatimSafe cnt = true →
      (∀ c ∈ cnt, c ≠ btick) ∧ (∀ c ∈ cnt, c ≠ '\t') ∧
      (∀ c ∈ cnt, c ≠ '\n') ∧ noDoubleDollar cnt = true ∧
      noTwoSpaces cnt = true ∧ cnt.head?.any isJsWs = false ∧
      cnt.getLast?.any isJsWs = false := by
    intro h
    unfold VerbatimSafe at h
    simp only [Bool.and_eq_true] at h
    obtain ⟨⟨⟨⟨hall, hdd⟩, hnts⟩, hh⟩, hl⟩ := h
    refine ⟨?_, ?_, ?_, hdd, hnts, ?_, ?_⟩
    · intro c hc
      have := List.all_eq_true.1 hall c hc
      simp at this
      exact this.1.1
    · intro c hc
      have := List.all_eq_true.1 hall c hc
      simp at this
      exact this.1.2
    · intro c hc
      have := List.all_eq_true.1 hall c hc
      simp at this
      exact this.2
    · simpa using hh
    · simpa using hl
  constructor
  · intro h
    obtain ⟨hb, ht, hn, hdd, hnts, hh, hl⟩ := extract h
    show (scan2 (([btick, btick, btick] ++ (cnt ++ [btick, btick, btick])).length + 1)
        initScanSt true
        (btick :: btick :: btick :: (cnt ++ [btick, btick, btick]))).map postNorm2
        = some cnt
    rw [scan2_full_fence cnt _ true hb hdd
      (by simp only [List.length_append, List.length_cons, List.length_nil]; omega)]
    exact congrArg some (postNorm2_id cnt ht hn hnts hh hl)
  · intro h hdol
    obtain ⟨hb, ht, hn, _, hnts, hh, hl⟩ := extract h
    show (scan2 ((btick :: (cnt ++ [btick])).length + 1) initScanSt true
        (btick :: (cnt ++ [btick]))).map postNorm2 = some cnt
    rw [scan2_full_inline cnt _ true hb hdol
      (by simp only [List.length_append, List.length_cons, List.length_nil]; omega)]
    exact congrArg some (postNorm2_id cnt ht hn hnts hh hl)

/-- Witness for the amended C7 at content `abc`. -/
theorem preprocessText2_code_verbatim_witness :
    preprocessText2 ([btick, btick, btick] ++ (['a', 'b', 'c'] ++ [btick, btick, btick]))
      = some ['a', 'b', 'c'] ∧
    preprocessText2 (btick :: (['a', 'b', 'c'] ++ [btick])) = some ['a', 'b', 'c'] :=
  ⟨(preprocessText2_code_verbatim ['a', 'b', 'c']).1 (by decide),
   (preprocessText2_code_verbatim ['a', 'b', 'c']).2 (by decide) (by decide)⟩

/-! ## Persistence load (`StatsManager.loadData`, README lines 382-421)

The raw stored array is untyped JavaScript data; we model each field as a
`JsVal` (number, string, boolean, `null` or `undefined`) and `||`-defaulting
as "keep if truthy, else the default".  Note that a negative number is
truthy in JavaScript.  The retention filter compares millisecond clock
values: `new Date(item.date)` is the UTC midnight of the stored date and
`thirtyDaysAgo` is `now` minus 30 calendar days; both are modelled on a
common millisecond scale (`nowMs` is the load-time clock, day numbers are
scaled by 86400000).  An unparseable date is `NaN`, whose comparisons are
all false, so the record is dropped. -/

inductive JsVal where
  | num (n : Int)
  | str (s : List Char)
  | bool (b : Bool)
  | null
  | undef
  deriving Repr, DecidableEq

def truthy : JsVal → Bool
  | .num n => n ≠ 0
  | .str s => s ≠ []
  | .bool b => b
  | .null => false
  | .undef => false

/-- `x || 0`. -/
def orZero (v : JsVal) : JsVal := if truthy v then v else .num 0

/-- `x || false`. -/
def orFalse (v : JsVal) : JsVal := if truthy v then v else .bool false

/-- One raw element of the stored array. -/
structure RawItem where
  date : Option (List Char)
  chinese : JsVal
  english : JsVal
  punctuation : JsVal
  numbers : JsVal
  spaces : JsVal
  words : JsVal
  total : JsVal
  completed : JsVal
  charChanges : Option (List CharChange)
  deriving Repr, DecidableEq

/-- A validated element as built by `loadData`'s `map`. -/
structure LoadedItem where
  date : List Char
  chinese : JsVal
  english : JsVal
  punctuation : JsVal
  numbers : JsVal
  spaces : JsVal
  words : JsVal
  total : JsVal
  goal : Nat
  completed : JsVal
  charChanges : List CharChange
  deriving Repr, DecidableEq

/-- The field-level defaulting of `loadData` (`item.x || 0`,
`item.completed || false`, `goal: 0`, `item.charChanges || []`). -/
def validateItem (it : RawItem) : LoadedItem :=
  { date := it.date.getD []
    chinese := orZero it.chinese
    english := orZero it.english
    punctuation := orZero it.punctuation
    numbers := orZero it.numbers
    spaces := orZero it.spaces
    words := orZero it.words
    total := orZero it.total
    goal := 0
    completed := orFalse it.completed
    charChanges := it.charChanges.getD [] }

def DAY_MS : Int := 86400000

/-- `itemDate >= thirtyDaysAgo && itemDate <= today` on the millisecond
scale. -/
def inWindow (nowMs : Int) (d : List Char) : Bool :=
  match parseDateDays d with
  | none => false
  | some days =>
    decide (nowMs - 30 * DAY_MS ≤ (days : Int) * DAY_MS) &&
    decide ((days : Int) * DAY_MS ≤ nowMs)

/-- `loadData`: validate every stored item, keep the 30-day window, and key
the result by date. -/
def loadStats (nowMs : Int) (items : List RawItem) :
    List (List Char × LoadedItem) :=
  ((items.map validateItem).filter (fun it => inWindow nowMs it.date)).map
    (fun it => (it.date, it))

def d20240629 : List Char := ['2','0','2','4','-','0','6','-','2','9']

/-- Load-time clock used by the concrete counterexamples: midnight of
2024-06-30. -/
def nowC : Int := (civilDayNumber 2024 6 30 : Int) * DAY_MS

/-- A stored record carrying a negative `chinese` counter. -/
def rawNeg : RawItem :=
  ⟨some d20240629, .num (-5), .undef, .undef, .undef, .undef, .undef,
    .undef, .undef, none⟩

/-- A stored record dated far outside the 30-day window. -/
def rawOld : RawItem :=
  ⟨some d20240101, .undef, .undef, .undef, .undef, .undef, .undef,
    .undef, .undef, none⟩

/-- Counterexample to C8 as stated: a negative stored counter is truthy, so
`item.chinese || 0` keeps it; the loaded record still carries `-5`. -/
theorem loadData_keeps_negative :
    (loadStats nowC [rawNeg]).map (fun kv => kv.2.chinese) =
      [JsVal.num (-5)] ∧ JsVal.num (-5) ≠ JsVal.num 0 := by
  decide

/-- C8 (amended): on load, every surviving key lies inside the retention
window (records more than 30 days old — or future-dated or unparseable —
are dropped); missing, `null` and zero counters default to 0 while negative
numeric counters are kept as they are; missing `completed` defaults to
`false`; `goal` is forced to 0. -/
theorem loadData_validation (nowMs : Int) (items : List RawItem) :
    (∀ d ∈ (loadStats nowMs items).map Prod.fst, inWindow nowMs d = true) ∧
    (∀ it ∈ items, ∀ days : Nat,
      parseDateDays (validateItem it).date = some days →
      (days : Int) * DAY_MS < nowMs - 30 * DAY_MS →
      (validateItem it).date ∉ (loadStats nowMs items).map Prod.fst) ∧
    (∀ it : RawItem,
      ((it.chinese = JsVal.undef ∨ it.chinese = JsVal.null ∨
          it.chinese = JsVal.num 0) → (validateItem it).chinese = JsVal.num 0) ∧
      (∀ n : Int, it.chinese = JsVal.num n → n ≠ 0 →
        (validateItem it).chinese = JsVal.num n) ∧
      (it.completed = JsVal.undef → (validateItem it).completed = JsVal.bool false) ∧
      (validateItem it).goal = 0) := by
  have hkeys : ∀ d ∈ (loadStats nowMs items).map Prod.fst,
      inWindow nowMs d = true := by
    intro d hd
    simp only [loadStats, List.map_map, List.mem_map, Function.comp] at hd
    obtain ⟨it, hit, hfst⟩ := hd
    have hw := (List.mem_filter.1 hit).2
    rw [← hfst]
    simpa using hw
  refine ⟨hkeys, ?_, ?_⟩
  · intro it _ days hdays hlt hmem
    have hw := hkeys _ hmem
    unfold inWindow at hw
    rw [hdays] at hw
    rw [Bool.and_eq_true, decide_eq_true_eq, decide_eq_true_eq] at hw
    omega
  · intro it
    refine ⟨?_, ?_, ?_, rfl⟩
    · intro h
      have : (validateItem it).chinese = orZero it.chinese := rfl
      rw [this]
      rcases h with h | h | h <;> rw [h] <;> rfl
    · intro n hn hne
      have : (validateItem it).chinese = orZero it.chinese := rfl
      rw [this, hn]
      unfold orZero truthy
      simp [hne]
    · intro h
      have : (validateItem it).completed = orFalse it.completed := rfl
      rw [this, h]
      rfl

/-- Witness for the amended C8: the defaulting clauses at `rawNeg` and the
drop clause at `rawOld` (dated 2024-01-01, loaded on 2024-06-30). -/
theorem loadData_validation_witness :
    (validateItem rawOld).chinese = JsVal.num 0 ∧
    (validateItem rawNeg).chinese = JsVal.num (-5) ∧
    (validateItem rawOld).completed = JsVal.bool false ∧
    (validateItem rawOld).date ∉ (loadStats nowC [rawOld]).map Prod.fst :=
  ⟨((loadData_validation nowC [rawOld]).2.2 rawOld).1 (Or.inl rfl),
   (((loadData_validation nowC [rawNeg]).2.2 rawNeg).2.1 (-5)) rfl (by decide),
   ((loadData_validation nowC [rawOld]).2.2 rawOld).2.2.1 rfl,
   (loadData_validation nowC [rawOld]).2.1 rawOld (by decide)
     (civilDayNumber 2024 1 1) (by decide) (by decide)⟩

end WriterStats
